import Mathlib

/-!
Verification of the semantic ranking core of BizFinder (`semantic_filter.py`).

Strings are modelled as lists of characters; Python's `str.lower` becomes a
character-wise `Char.toLower` map, and the `in` substring test becomes an
executable scan `substrB` proved equivalent to the occurrence predicate
`occursIn`.  Similarity scores produced by the embedding model are modelled as
an uninterpreted function `sim : Str → Str → ℚ` (the cosine similarity of the
encoded query and the encoded program text); all score arithmetic is over ℚ.
Program records are a structure whose text fields default to the empty string
(missing keys read as `""` in the source) and whose derived fields are
`Option`-valued, `none` meaning the key is absent from the record.
-/

abbrev Str := List Char

/-- Character-wise lower-casing, the model of Python's `str.lower()`. -/
def lower (s : Str) : Str := s.map Char.toLower

/-- Executable test that `n` begins `h` (model of Python prefix comparison). -/
def isPrefB : Str → Str → Bool
  | [], _ => true
  | _ :: _, [] => false
  | a :: s, b :: t => a == b && isPrefB s t

/-- Executable substring scan: model of Python's `needle in haystack`. -/
def substrB (n : Str) : Str → Bool
  | [] => n.isEmpty
  | c :: t => isPrefB n (c :: t) || substrB n t

/-- `n` occurs as a contiguous substring of `h`. -/
def occursIn (n h : Str) : Prop := ∃ p q, h = p ++ n ++ q

/-- Model of the Python f-string `f"{a} {b} {c}"`: the three parts joined by
single spaces, empty parts included. -/
def glue3 (a b c : Str) : Str := a ++ ' ' :: (b ++ ' ' :: c)

/-- Model of `" ".join`: parts joined by single spaces. -/
def joinSp : List Str → Str
  | [] => []
  | [s] => s
  | s :: s' :: rest => s ++ ' ' :: joinSp (s' :: rest)

/-- One program record.  The eight base fields come straight from the upstream
record (absent keys read as the empty string); the six derived fields are the
keys `filter_by_similarity` may attach to a copy, `none` when absent. -/
structure Program where
  title : Str := []
  description : Str := []
  target : Str := []
  category : Str := []
  agency : Str := []
  link : Str := []
  start_date : Str := []
  end_date : Str := []
  similarity_score : Option ℚ := none
  matched_keywords : Option (List Str) := none
  matched_count : Option Nat := none
  is_exact_match : Option Bool := none
  total_keywords : Option Nat := none
  region_matched : Option Bool := none
deriving DecidableEq, Repr

/-- The eight base fields of `a` and `b` agree (the record data that
`program.copy()` carries over unchanged). -/
def baseEq (a b : Program) : Prop :=
  a.title = b.title ∧ a.description = b.description ∧ a.target = b.target ∧
  a.category = b.category ∧ a.agency = b.agency ∧ a.link = b.link ∧
  a.start_date = b.start_date ∧ a.end_date = b.end_date

/-- `create_program_text`: title, description, target, category, agency with
the empty parts dropped, space-joined. -/
def create_program_text (p : Program) : Str :=
  joinSp ([p.title, p.description, p.target, p.category, p.agency].filter
    (fun s => !s.isEmpty))

/-- The stop-word set of `extract_keywords`. -/
def stopwords : List Str :=
  ["저는", "저", "나는", "나", "있는", "하는", "있어요", "합니다", "해요",
   "싶어요", "싶습니다", "있습니다", "입니다", "에서", "으로", "이고",
   "하고", "그리고", "또한", "위해", "통해", "대한", "관한", "에게",
   "지원사업", "지원", "사업", "소상공인"].map String.data

/-- The token sequence of the query: commas and periods replaced by spaces,
then split on whitespace (the `words` variable of `extract_keywords`). -/
def queryTokens (user_description : Str) : List Str :=
  (List.splitOnP (fun c => c.isWhitespace)
    (user_description.map (fun c => if c = ',' || c = '.' then ' ' else c))).filter
    (fun w => !w.isEmpty)

/-- `extract_keywords`: keep the query tokens of length ≥ 2 that are not
stop-words. -/
def extract_keywords (user_description : Str) : List Str :=
  (queryTokens user_description).filter
    (fun w => decide (2 ≤ w.length) && !(decide (w ∈ stopwords)))

/-- `check_keyword_match`: the query keywords that occur (case-insensitively)
in `f"{title} {description} {target}"`, in query order. -/
def check_keyword_match (keywords : List Str) (title description target : Str) :
    List Str :=
  let full_text := glue3 (lower title) (lower description) (lower target)
  keywords.filter (fun kw => substrB (lower kw) full_text)

/-- `REGION_KEYWORDS`: the fixed administrative-region name set. -/
def REGION_KEYWORDS : List Str :=
  ["서울", "부산", "대구", "인천", "광주", "대전", "울산", "세종",
   "경기", "강원", "충북", "충남", "전북", "전남", "경북", "경남", "제주",
   "전라북도", "전라남도", "경상북도", "경상남도", "충청북도", "충청남도",
   "강원도", "경기도", "제주도", "제주특별자치도"].map String.data

/-- `is_region_keyword`. -/
def is_region_keyword (keyword : Str) : Bool := decide (keyword ∈ REGION_KEYWORDS)

/-- The literal nationwide marker `"전국"`. -/
def nationwideMarker : Str := "전국".data

/-- `check_region_match`: the region name, lower-cased, occurs in the
lower-cased `f"{title} {description} {target}"`, or the nationwide marker
does. -/
def check_region_match (region_keyword title description target : Str) : Bool :=
  let full_text := lower (glue3 title description target)
  substrB (lower region_keyword) full_text || substrB nationwideMarker full_text

/-- The region keywords appearing in the query's keyword list
(`[kw for kw in keywords if is_region_keyword(kw)]`). -/
def regionKeywordsIn (keywords : List Str) : List Str :=
  keywords.filter is_region_keyword

/-- The any-match (OR) branch: a matched candidate's annotated copy, `none`
when it has no matched keyword. -/
def anyExact (sim : Str → Str → ℚ) (user_description : Str) (keywords : List Str)
    (p : Program) : Option Program :=
  let score := sim user_description (create_program_text p)
  let matched := check_keyword_match keywords p.title p.description p.target
  if matched.isEmpty then none
  else some { p with
    similarity_score := some (min (score + min ((matched.length : ℚ) * (1/10)) (3/10)) 1),
    matched_keywords := some matched,
    matched_count := some matched.length,
    is_exact_match := some true }

/-- The any-match similarity-tier branch: an unmatched candidate's copy when
its raw score reaches `min_score`, `none` otherwise. -/
def anySim (sim : Str → Str → ℚ) (user_description : Str) (keywords : List Str)
    (min_score : ℚ) (p : Program) : Option Program :=
  let score := sim user_description (create_program_text p)
  let matched := check_keyword_match keywords p.title p.description p.target
  if matched.isEmpty && decide (min_score ≤ score) then
    some { p with
      similarity_score := some score,
      is_exact_match := some false,
      matched_count := some 0 }
  else none

/-- The all-match (AND) branch: a matched, region-compatible candidate's
annotated copy, `none` when it has no matched keyword or fails the region
check. -/
def allExact (sim : Str → Str → ℚ) (user_description : Str) (keywords : List Str)
    (p : Program) : Option Program :=
  let score := sim user_description (create_program_text p)
  let matched := check_keyword_match keywords p.title p.description p.target
  if matched.isEmpty then none
  else
    let region_kws := regionKeywordsIn keywords
    let region_matched := region_kws.isEmpty ||
      region_kws.any (fun kw => check_region_match kw p.title p.description p.target)
    if region_matched then
      some { p with
        similarity_score := some (min (score + min ((matched.length : ℚ) * (1/10)) (1/2)) 1),
        matched_keywords := some matched,
        matched_count := some matched.length,
        total_keywords := some keywords.length,
        is_exact_match := some (decide (matched.length = keywords.length)),
        region_matched := some true }
    else none

/-- Sort relation of `exact_match_programs.sort(key=λx:(-matched_count,-score))`:
`a` may come before `b` when `a`'s key tuple is ≤ `b`'s. -/
def exactLE (a b : Program) : Bool :=
  decide (b.matched_count.getD 0 < a.matched_count.getD 0) ||
  (decide (a.matched_count.getD 0 = b.matched_count.getD 0) &&
   decide (b.similarity_score.getD 0 ≤ a.similarity_score.getD 0))

/-- Sort relation of `similar_programs.sort(key=score, reverse=True)`. -/
def simLE (a b : Program) : Bool :=
  decide (b.similarity_score.getD 0 ≤ a.similarity_score.getD 0)

/-- The exact-match tier before sorting, in input order. -/
def exactList (sim : Str → Str → ℚ) (user_description : Str) (keywords : List Str)
    (match_all : Bool) (programs : List Program) : List Program :=
  programs.filterMap (fun p =>
    if match_all then allExact sim user_description keywords p
    else anyExact sim user_description keywords p)

/-- The similarity tier before sorting, in input order (empty in all-match
mode, where the `else` branch never runs). -/
def simList (sim : Str → Str → ℚ) (user_description : Str) (keywords : List Str)
    (min_score : ℚ) (match_all : Bool) (programs : List Program) : List Program :=
  if match_all then []
  else programs.filterMap (anySim sim user_description keywords min_score)

/-- The exact-match tier after the sort by (matched count desc, score desc). -/
def sortedExactTier (sim : Str → Str → ℚ) (user_description : Str)
    (match_all : Bool) (programs : List Program) : List Program :=
  (exactList sim user_description (extract_keywords user_description) match_all
    programs).mergeSort exactLE

/-- The similarity tier after the sort by score descending. -/
def sortedSimTier (sim : Str → Str → ℚ) (user_description : Str) (min_score : ℚ)
    (match_all : Bool) (programs : List Program) : List Program :=
  (simList sim user_description (extract_keywords user_description) min_score
    match_all programs).mergeSort simLE

/-- The full ranked list before truncation: sorted exact-match tier followed
by the sorted similarity tier. -/
def rankedList (sim : Str → Str → ℚ) (user_description : Str)
    (programs : List Program) (min_score : ℚ) (match_all : Bool) : List Program :=
  sortedExactTier sim user_description match_all programs ++
  sortedSimTier sim user_description min_score match_all programs

/-- Model of `result[:top_n] if top_n else result`: `some 0` is falsy in
Python, so it returns the whole list, like `none`. -/
def truncate (top_n : Option Nat) (l : List Program) : List Program :=
  match top_n with
  | none => l
  | some n => if n = 0 then l else l.take n

/-- `filter_by_similarity`.  `sim` is the cosine-similarity oracle between the
encoded query and an encoded program text. -/
def filter_by_similarity (sim : Str → Str → ℚ) (user_description : Str)
    (programs : List Program) (top_n : Option Nat) (min_score : ℚ)
    (match_all : Bool) : List Program :=
  if programs.isEmpty || user_description.isEmpty then truncate top_n programs
  else truncate top_n (rankedList sim user_description programs min_score match_all)

/-! ### Substring lemmas -/

theorem isPrefB_iff : ∀ s t : Str, isPrefB s t = true ↔ ∃ r, t = s ++ r
  | [], t => by simp [isPrefB]
  | a :: s, [] => by simp [isPrefB]
  | a :: s, b :: t => by
    simp only [isPrefB, Bool.and_eq_true, beq_iff_eq, isPrefB_iff s t,
      List.cons_append, List.cons.injEq]
    constructor
    · rintro ⟨rfl, r, rfl⟩; exact ⟨r, rfl, rfl⟩
    · rintro ⟨r, rfl, rfl⟩; exact ⟨rfl, r, rfl⟩

theorem substrB_iff : ∀ n h : Str, substrB n h = true ↔ occursIn n h
  | n, [] => by
    simp only [substrB, occursIn, List.isEmpty_iff]
    constructor
    · rintro rfl; exact ⟨[], [], rfl⟩
    · rintro ⟨p, q, hpq⟩
      rcases List.append_eq_nil.mp hpq.symm with ⟨h1, h2⟩
      exact (List.append_eq_nil.mp h1).2
  | n, c :: t => by
    simp only [substrB, Bool.or_eq_true, isPrefB_iff, substrB_iff n t]
    constructor
    · rintro (⟨r, hr⟩ | ⟨p, q, rfl⟩)
      · exact ⟨[], r, by simpa using hr⟩
      · exact ⟨c :: p, q, rfl⟩
    · rintro ⟨p, q, hpq⟩
      cases p with
      | nil => exact Or.inl ⟨q, by simpa using hpq⟩
      | cons x p' =>
        rcases List.cons.injEq .. ▸ hpq with ⟨rfl, h2⟩
        exact Or.inr ⟨p', q, h2⟩

theorem occursIn_trans {a b c : Str} (h1 : occursIn a b) (h2 : occursIn b c) :
    occursIn a c := by
  obtain ⟨p, q, rfl⟩ := h1
  obtain ⟨p', q', rfl⟩ := h2
  exact ⟨p' ++ p, q ++ q', by simp⟩

theorem occursIn_lower {a b : Str} (h : occursIn a b) :
    occursIn (lower a) (lower b) := by
  obtain ⟨p, q, rfl⟩ := h
  exact ⟨lower p, lower q, by simp [lower]⟩

theorem occursIn_nil {n : Str} (h : occursIn n []) : n = [] := by
  obtain ⟨p, q, hpq⟩ := h
  rcases List.append_eq_nil.mp hpq.symm with ⟨h1, _⟩
  exact (List.append_eq_nil.mp h1).2

theorem pref_split : ∀ (n a : Str) (c : Char) (b : Str), c ∉ n →
    (∃ r, a ++ c :: b = n ++ r) → ∃ r', a = n ++ r'
  | [], a, _, _, _, _ => ⟨a, rfl⟩
  | x :: n', a, c, b, hc, ⟨r, hr⟩ => by
    cases a with
    | nil =>
      rcases List.cons.injEq .. ▸ hr with ⟨rfl, _⟩
      exact absurd (List.mem_cons_self c n') hc
    | cons y a' =>
      rcases List.cons.injEq .. ▸ hr with ⟨rfl, h2⟩
      obtain ⟨r', hr'⟩ := pref_split n' a' c b (fun hm => hc (List.mem_cons_of_mem _ hm)) ⟨r, h2⟩
      exact ⟨r', by rw [hr']; rfl⟩

theorem occursIn_split {n : Str} {c : Char} (hc : c ∉ n) :
    ∀ {a b : Str}, occursIn n (a ++ c :: b) → occursIn n a ∨ occursIn n b := by
  rintro a b ⟨p, q, hpq⟩
  induction p generalizing a with
  | nil =>
    obtain ⟨r', hr'⟩ := pref_split n a c b hc ⟨q, by simpa using hpq⟩
    exact Or.inl ⟨[], r', by simpa using hr'⟩
  | cons x p' ih =>
    cases a with
    | nil =>
      rcases List.cons.injEq .. ▸ hpq with ⟨rfl, h2⟩
      exact Or.inr ⟨p', q, h2⟩
    | cons y a' =>
      rcases List.cons.injEq .. ▸ hpq with ⟨rfl, h2⟩
      rcases ih h2 with ⟨p'', q'', hq⟩ | hb
      · exact Or.inl ⟨y :: p'', q'', by rw [hq]; rfl⟩
      · exact Or.inr hb

theorem occursIn_joinSp : ∀ (l : List Str) (x : Str), x ∈ l → occursIn x (joinSp l)
  | [], x, hx => absurd hx (List.not_mem_nil x)
  | [s], x, hx => by
    rcases List.mem_singleton.mp hx with rfl
    exact ⟨[], [], by simp [joinSp]⟩
  | s :: s' :: rest, x, hx => by
    rcases List.mem_cons.mp hx with rfl | hx'
    · exact ⟨[], ' ' :: joinSp (s' :: rest), by simp [joinSp]⟩
    · obtain ⟨p, q, hpq⟩ := occursIn_joinSp (s' :: rest) x hx'
      exact ⟨s ++ ' ' :: p, q, by simp [joinSp, hpq]⟩

theorem lower_glue3 (a b c : Str) :
    lower (glue3 a b c) = glue3 (lower a) (lower b) (lower c) := by
  simp [lower, glue3]

/-- A space-free, non-empty string occurring in the lower-cased
title–description–target text occurs in the lower-cased composite text. -/
theorem occursIn_text_of_glue3 (p : Program) {n : Str} (hn : n ≠ []) (hsp : ' ' ∉ n)
    (h : occursIn n (lower (glue3 p.title p.description p.target))) :
    occursIn n (lower (create_program_text p)) := by
  rw [lower_glue3] at h
  have hfield : occursIn n (lower p.title) ∨ occursIn n (lower p.description) ∨
      occursIn n (lower p.target) := by
    rcases occursIn_split hsp h with h1 | h2
    · exact Or.inl h1
    · rcases occursIn_split hsp h2 with h3 | h4
      · exact Or.inr (Or.inl h3)
      · exact Or.inr (Or.inr h4)
  have key : ∀ f : Str, f ∈ [p.title, p.description, p.target, p.category, p.agency] →
      occursIn n (lower f) → occursIn n (lower (create_program_text p)) := by
    intro f hf hocc
    by_cases hfe : f = []
    · subst hfe
      exact absurd (occursIn_nil (by simpa [lower] using hocc)) hn
    · have hmem : f ∈ [p.title, p.description, p.target, p.category, p.agency].filter
          (fun s => !s.isEmpty) :=
        List.mem_filter.mpr ⟨hf, by simpa [List.isEmpty_iff] using hfe⟩
      exact occursIn_trans hocc (occursIn_lower (occursIn_joinSp _ f hmem))
  rcases hfield with h1 | h2 | h3
  · exact key p.title (by simp) h1
  · exact key p.description (by simp) h2
  · exact key p.target (by simp) h3

/-! ### Sort relations -/

/-- Propositional reading of `exactLE`: descending matched count, then
descending score. -/
def ExactKey (a b : Program) : Prop :=
  b.matched_count.getD 0 < a.matched_count.getD 0 ∨
  (a.matched_count.getD 0 = b.matched_count.getD 0 ∧
   b.similarity_score.getD 0 ≤ a.similarity_score.getD 0)

/-- Propositional reading of `simLE`: descending score. -/
def SimKey (a b : Program) : Prop :=
  b.similarity_score.getD 0 ≤ a.similarity_score.getD 0

theorem exactLE_iff (a b : Program) : exactLE a b = true ↔ ExactKey a b := by
  simp [exactLE, ExactKey]

theorem simLE_iff (a b : Program) : simLE a b = true ↔ SimKey a b := by
  simp [simLE, SimKey]

theorem exactLE_trans (a b c : Program) (h1 : exactLE a b = true)
    (h2 : exactLE b c = true) : exactLE a c = true := by
  rw [exactLE_iff] at h1 h2 ⊢
  rcases h1 with h1 | ⟨h1e, h1s⟩ <;> rcases h2 with h2 | ⟨h2e, h2s⟩
  · exact Or.inl (h2.trans h1)
  · exact Or.inl (h2e ▸ h1)
  · exact Or.inl (h1e ▸ h2)
  · exact Or.inr ⟨h1e.trans h2e, h2s.trans h1s⟩

theorem exactLE_total (a b : Program) : (exactLE a b || exactLE b a) = true := by
  simp only [Bool.or_eq_true, exactLE_iff]
  rcases lt_trichotomy (a.matched_count.getD 0) (b.matched_count.getD 0) with h | h | h
  · exact Or.inr (Or.inl h)
  · rcases le_total (b.similarity_score.getD 0) (a.similarity_score.getD 0) with hs | hs
    · exact Or.inl (Or.inr ⟨h, hs⟩)
    · exact Or.inr (Or.inr ⟨h.symm, hs⟩)
  · exact Or.inl (Or.inl h)

theorem simLE_trans (a b c : Program) (h1 : simLE a b = true)
    (h2 : simLE b c = true) : simLE a c = true := by
  rw [simLE_iff] at h1 h2 ⊢
  exact h2.trans h1

theorem simLE_total (a b : Program) : (simLE a b || simLE b a) = true := by
  simp only [Bool.or_eq_true, simLE_iff, SimKey]
  exact (le_total _ _).symm

/-! ### Branch characterizations -/

theorem anyExact_eq_some_iff {sim : Str → Str → ℚ} {ud : Str} {kws : List Str}
    {p r : Program} :
    anyExact sim ud kws p = some r ↔
    check_keyword_match kws p.title p.description p.target ≠ [] ∧
    r = { p with
      similarity_score := some (min (sim ud (create_program_text p) +
        min (((check_keyword_match kws p.title p.description p.target).length : ℚ) * (1/10))
          (3/10)) 1),
      matched_keywords := some (check_keyword_match kws p.title p.description p.target),
      matched_count := some (check_keyword_match kws p.title p.description p.target).length,
      is_exact_match := some true } := by
  constructor
  · intro h
    simp only [anyExact] at h
    split at h
    · exact absurd h (by simp)
    · next hm =>
        injection h with h
        exact ⟨by simpa [List.isEmpty_iff] using hm, h.symm⟩
  · rintro ⟨hne, rfl⟩
    simp only [anyExact]
    rw [if_neg (by simpa [List.isEmpty_iff] using hne)]

theorem anySim_eq_some_iff {sim : Str → Str → ℚ} {ud : Str} {kws : List Str}
    {ms : ℚ} {p r : Program} :
    anySim sim ud kws ms p = some r ↔
    check_keyword_match kws p.title p.description p.target = [] ∧
    ms ≤ sim ud (create_program_text p) ∧
    r = { p with
      similarity_score := some (sim ud (create_program_text p)),
      is_exact_match := some false,
      matched_count := some 0 } := by
  constructor
  · intro h
    simp only [anySim] at h
    split at h
    · next hc =>
        rcases Bool.and_eq_true .. ▸ hc with ⟨hm, hs⟩
        injection h with h
        exact ⟨List.isEmpty_iff.mp hm, by simpa using hs, h.symm⟩
    · exact absurd h (by simp)
  · rintro ⟨hm, hs, rfl⟩
    simp only [anySim]
    rw [if_pos (by simp [List.isEmpty_iff, hm, hs])]

theorem allExact_eq_some_iff {sim : Str → Str → ℚ} {ud : Str} {kws : List Str}
    {p r : Program} :
    allExact sim ud kws p = some r ↔
    check_keyword_match kws p.title p.description p.target ≠ [] ∧
    ((regionKeywordsIn kws).isEmpty ||
      (regionKeywordsIn kws).any
        (fun kw => check_region_match kw p.title p.description p.target)) = true ∧
    r = { p with
      similarity_score := some (min (sim ud (create_program_text p) +
        min (((check_keyword_match kws p.title p.description p.target).length : ℚ) * (1/10))
          (1/2)) 1),
      matched_keywords := some (check_keyword_match kws p.title p.description p.target),
      matched_count := some (check_keyword_match kws p.title p.description p.target).length,
      total_keywords := some kws.length,
      is_exact_match := some (decide
        ((check_keyword_match kws p.title p.description p.target).length = kws.length)),
      region_matched := some true } := by
  constructor
  · intro h
    simp only [allExact] at h
    split at h
    · exact absurd h (by simp)
    · next hm =>
        split at h
        · next hr =>
            injection h with h
            exact ⟨by simpa [List.isEmpty_iff] using hm, hr, h.symm⟩
        · exact absurd h (by simp)
  · rintro ⟨hne, hr, rfl⟩
    simp only [allExact]
    rw [if_neg (by simpa [List.isEmpty_iff] using hne), if_pos hr]

theorem anyExact_base {sim : Str → Str → ℚ} {ud : Str} {kws : List Str}
    {p r : Program} (h : anyExact sim ud kws p = some r) : baseEq r p := by
  rcases anyExact_eq_some_iff.mp h with ⟨_, rfl⟩
  exact ⟨rfl, rfl, rfl, rfl, rfl, rfl, rfl, rfl⟩

theorem anySim_base {sim : Str → Str → ℚ} {ud : Str} {kws : List Str} {ms : ℚ}
    {p r : Program} (h : anySim sim ud kws ms p = some r) : baseEq r p := by
  rcases anySim_eq_some_iff.mp h with ⟨_, _, rfl⟩
  exact ⟨rfl, rfl, rfl, rfl, rfl, rfl, rfl, rfl⟩

theorem allExact_base {sim : Str → Str → ℚ} {ud : Str} {kws : List Str}
    {p r : Program} (h : allExact sim ud kws p = some r) : baseEq r p := by
  rcases allExact_eq_some_iff.mp h with ⟨_, _, rfl⟩
  exact ⟨rfl, rfl, rfl, rfl, rfl, rfl, rfl, rfl⟩

/-! ### Membership plumbing -/

theorem mem_of_mem_truncate {tn : Option Nat} {l : List Program} {r : Program}
    (h : r ∈ truncate tn l) : r ∈ l := by
  cases tn with
  | none => exact h
  | some n =>
    simp only [truncate] at h
    split at h
    · exact h
    · exact (List.take_sublist n l).mem h

theorem truncate_sublist (tn : Option Nat) (l : List Program) :
    (truncate tn l).Sublist l := by
  cases tn with
  | none => exact List.Sublist.refl l
  | some n =>
    simp only [truncate]
    split
    · exact List.Sublist.refl l
    · exact List.take_sublist n l

theorem rankedList_mem_all {sim : Str → Str → ℚ} {ud : Str}
    {programs : List Program} {ms : ℚ} {r : Program}
    (h : r ∈ rankedList sim ud programs ms true) :
    ∃ p ∈ programs, allExact sim ud (extract_keywords ud) p = some r := by
  simp only [rankedList, sortedExactTier, sortedSimTier, simList, if_pos, List.mergeSort_nil, List.append_nil] at h
  rw [(List.mergeSort_perm _ exactLE).mem_iff] at h
  simpa [exactList, List.mem_filterMap] using h

theorem rankedList_mem_any {sim : Str → Str → ℚ} {ud : Str}
    {programs : List Program} {ms : ℚ} {r : Program}
    (h : r ∈ rankedList sim ud programs ms false) :
    ∃ p ∈ programs, anyExact sim ud (extract_keywords ud) p = some r ∨
      anySim sim ud (extract_keywords ud) ms p = some r := by
  simp only [rankedList, sortedExactTier, sortedSimTier, List.mem_append] at h
  rcases h with h | h
  · rw [(List.mergeSort_perm _ exactLE).mem_iff] at h
    simp only [exactList, Bool.false_eq_true, if_false, List.mem_filterMap] at h
    obtain ⟨p, hp, he⟩ := h
    exact ⟨p, hp, Or.inl he⟩
  · rw [(List.mergeSort_perm _ simLE).mem_iff] at h
    simp only [simList, Bool.false_eq_true, if_false, List.mem_filterMap] at h
    obtain ⟨p, hp, he⟩ := h
    exact ⟨p, hp, Or.inr he⟩

theorem mem_rankedList_all {sim : Str → Str → ℚ} {ud : Str}
    {programs : List Program} {ms : ℚ} {p r : Program} (hp : p ∈ programs)
    (he : allExact sim ud (extract_keywords ud) p = some r) :
    r ∈ rankedList sim ud programs ms true := by
  simp only [rankedList, sortedExactTier, sortedSimTier, simList, if_pos, List.mergeSort_nil, List.append_nil]
  rw [(List.mergeSort_perm _ exactLE).mem_iff]
  simp only [exactList, if_pos, List.mem_filterMap]
  exact ⟨p, hp, he⟩

theorem mem_rankedList_any_exact {sim : Str → Str → ℚ} {ud : Str}
    {programs : List Program} {ms : ℚ} {p r : Program} (hp : p ∈ programs)
    (he : anyExact sim ud (extract_keywords ud) p = some r) :
    r ∈ rankedList sim ud programs ms false := by
  simp only [rankedList, sortedExactTier, sortedSimTier, List.mem_append]
  left
  rw [(List.mergeSort_perm _ exactLE).mem_iff]
  simp only [exactList, Bool.false_eq_true, if_false, List.mem_filterMap]
  exact ⟨p, hp, he⟩

theorem mem_rankedList_any_sim {sim : Str → Str → ℚ} {ud : Str}
    {programs : List Program} {ms : ℚ} {p r : Program} (hp : p ∈ programs)
    (he : anySim sim ud (extract_keywords ud) ms p = some r) :
    r ∈ rankedList sim ud programs ms false := by
  simp only [rankedList, sortedExactTier, sortedSimTier, List.mem_append]
  right
  rw [(List.mergeSort_perm _ simLE).mem_iff]
  simp only [simList, Bool.false_eq_true, if_false, List.mem_filterMap]
  exact ⟨p, hp, he⟩

theorem baseEq_refl (p : Program) : baseEq p p :=
  ⟨rfl, rfl, rfl, rfl, rfl, rfl, rfl, rfl⟩

theorem pairwise_sortedExactTier (sim : Str → Str → ℚ) (ud : Str) (ma : Bool)
    (programs : List Program) :
    List.Pairwise ExactKey (sortedExactTier sim ud ma programs) :=
  (List.sorted_mergeSort exactLE_trans exactLE_total _).imp
    (fun h => (exactLE_iff _ _).mp h)

theorem pairwise_sortedSimTier (sim : Str → Str → ℚ) (ud : Str) (ms : ℚ)
    (ma : Bool) (programs : List Program) :
    List.Pairwise SimKey (sortedSimTier sim ud ms ma programs) :=
  (List.sorted_mergeSort simLE_trans simLE_total _).imp
    (fun h => (simLE_iff _ _).mp h)

/-! ### Concrete data for counterexamples and witnesses -/

/-- The constant-zero similarity oracle. -/
def simZero : Str → Str → ℚ := fun _ _ => 0

/-- A similarity oracle returning a negative cosine similarity. -/
def simNeg : Str → Str → ℚ := fun _ _ => -(1/2)

def cafeQ : Str := "카페".data

def dupQ : Str := "카페 카페".data

def cafeProg : Program := { title := "카페 창업".data }

def exportProg : Program := { title := "가게".data, category := "수출".data }

def regionQ : Str := "전북 카페".data

def seoulProg : Program := { title := "서울 카페".data }

def jbProg : Program := { title := "전북 카페".data }

def noMatchProg : Program := { title := "물류".data }

/-- The annotated copy of `cafeProg` produced by the any-match branch under
the oracle `simNeg`. -/
def cafeNegCopy : Program :=
  { cafeProg with
    similarity_score := some (min (simNeg cafeQ (create_program_text cafeProg) +
      min (((check_keyword_match (extract_keywords cafeQ) cafeProg.title
        cafeProg.description cafeProg.target).length : ℚ) * (1/10)) (3/10)) 1),
    matched_keywords := some (check_keyword_match (extract_keywords cafeQ)
      cafeProg.title cafeProg.description cafeProg.target),
    matched_count := some (check_keyword_match (extract_keywords cafeQ)
      cafeProg.title cafeProg.description cafeProg.target).length,
    is_exact_match := some true }

/-! ### Claim theorems -/

/-- C1, counterexample: with a negative raw cosine similarity (−1/2) the
any-match exact tier returns a record whose `similarity_score` is −2/5 < 0:
no clamping of the embedding similarity to ≥ 0 happens anywhere, so the
claimed invariant `similarity_score ∈ [0,1]` fails. -/
theorem C1_counterexample :
    cafeNegCopy ∈ filter_by_similarity simNeg cafeQ [cafeProg] none (1/5) false ∧
    cafeNegCopy.similarity_score = some (-2/5 : ℚ) ∧ ¬ ((0:ℚ) ≤ -2/5) := by
  refine ⟨?_, ?_, by norm_num⟩
  · simp only [filter_by_similarity]
    rw [if_neg (by decide)]
    exact mem_rankedList_any_exact (List.mem_singleton.mpr rfl)
      (anyExact_eq_some_iff.mpr ⟨by decide, rfl⟩)
  · have hlen : (check_keyword_match (extract_keywords cafeQ) cafeProg.title
        cafeProg.description cafeProg.target).length = 1 := by decide
    simp only [cafeNegCopy, hlen]
    norm_num [simNeg, min_def]

/-- C1, amended: the returned scores are not clamped to ≥ 0; they are bounded
above by 1 always, and bounded below by −1 whenever the raw cosine
similarities lie in [−1, 1] (on records carrying no pre-existing score key).
The post-bonus final score is `min(score + bonus, 1)` and can be negative
when the raw similarity is. -/
theorem C1_score_bounds (sim : Str → Str → ℚ) (ud : Str) (programs : List Program)
    (top_n : Option Nat) (ms : ℚ) (ma : Bool)
    (hlo : ∀ t, -1 ≤ sim ud t) (hhi : ∀ t, sim ud t ≤ 1)
    (hfresh : ∀ p ∈ programs, p.similarity_score = none) :
    ∀ r ∈ filter_by_similarity sim ud programs top_n ms ma,
      ∀ q, r.similarity_score = some q → -1 ≤ q ∧ q ≤ 1 := by
  intro r hr q hq
  simp only [filter_by_similarity] at hr
  split at hr
  · rw [hfresh r (mem_of_mem_truncate hr)] at hq
    exact absurd hq (by simp)
  · have hr' := mem_of_mem_truncate hr
    cases ma with
    | true =>
      obtain ⟨p, _, he⟩ := rankedList_mem_all hr'
      rcases allExact_eq_some_iff.mp he with ⟨_, _, rfl⟩
      simp only [Option.some.injEq] at hq
      subst hq
      have hb0 : (0:ℚ) ≤ min (((check_keyword_match (extract_keywords ud) p.title
          p.description p.target).length : ℚ) * (1/10)) (1/2) :=
        le_min (by positivity) (by norm_num)
      exact ⟨le_min (by linarith [hlo (create_program_text p)]) (by norm_num),
        min_le_right _ _⟩
    | false =>
      rcases rankedList_mem_any hr' with ⟨p, _, he | he⟩
      · rcases anyExact_eq_some_iff.mp he with ⟨_, rfl⟩
        simp only [Option.some.injEq] at hq
        subst hq
        have hb0 : (0:ℚ) ≤ min (((check_keyword_match (extract_keywords ud) p.title
            p.description p.target).length : ℚ) * (1/10)) (3/10) :=
          le_min (by positivity) (by norm_num)
        exact ⟨le_min (by linarith [hlo (create_program_text p)]) (by norm_num),
          min_le_right _ _⟩
      · rcases anySim_eq_some_iff.mp he with ⟨_, _, rfl⟩
        simp only [Option.some.injEq] at hq
        subst hq
        exact ⟨hlo _, hhi _⟩

/-- C1 witness: the bounds theorem applied to a concrete query, record and
oracle. -/
theorem C1_score_bounds_witness :
    -1 ≤ min (simNeg cafeQ (create_program_text cafeProg) +
      min (((check_keyword_match (extract_keywords cafeQ) cafeProg.title
        cafeProg.description cafeProg.target).length : ℚ) * (1/10)) (3/10)) 1 ∧
    min (simNeg cafeQ (create_program_text cafeProg) +
      min (((check_keyword_match (extract_keywords cafeQ) cafeProg.title
        cafeProg.description cafeProg.target).length : ℚ) * (1/10)) (3/10)) 1 ≤ 1 := by
  have hmem : cafeNegCopy ∈ filter_by_similarity simNeg cafeQ [cafeProg] none (1/5) false := by
    simp only [filter_by_similarity]
    rw [if_neg (by decide)]
    exact mem_rankedList_any_exact (List.mem_singleton.mpr rfl)
      (anyExact_eq_some_iff.mpr ⟨by decide, rfl⟩)
  exact C1_score_bounds simNeg cafeQ [cafeProg] none (1/5) false
    (fun t => by norm_num [simNeg]) (fun t => by norm_num [simNeg])
    (by intro p hp; rcases List.mem_singleton.mp hp with rfl; rfl)
    cafeNegCopy hmem _ rfl

/-- C4, counterexample: `extract_keywords` keeps both occurrences of a
repeated token — the claimed deduplication does not happen. -/
theorem C4_counterexample :
    extract_keywords dupQ = ["카페".data, "카페".data] ∧
    ¬ (extract_keywords dupQ).Nodup := by
  exact ⟨by decide, by decide⟩

/-- C4, amended: the keyword sequence is the whitespace split of the query
with commas and periods replaced by spaces, restricted (in order) to the
tokens of length ≥ 2 outside the stop-word set — with every occurrence of a
repeated qualifying token kept, not only the first. -/
theorem C4_extract_keywords_spec (ud : Str) :
    (extract_keywords ud).Sublist (queryTokens ud) ∧
    (∀ w ∈ extract_keywords ud, 2 ≤ w.length ∧ w ∉ stopwords) ∧
    (∀ w ∈ queryTokens ud, 2 ≤ w.length → w ∉ stopwords → w ∈ extract_keywords ud) ∧
    (∀ w : Str, 2 ≤ w.length → w ∉ stopwords →
      (extract_keywords ud).count w = (queryTokens ud).count w) := by
  refine ⟨List.filter_sublist _, ?_, ?_, ?_⟩
  · intro w hw
    rcases List.mem_filter.mp hw with ⟨_, hpred⟩
    simpa using hpred
  · intro w hw h1 h2
    exact List.mem_filter.mpr ⟨hw, by simp [h1, h2]⟩
  · intro w h1 h2
    exact List.count_filter (by simp [h1, h2])

/-- C4 witness: on the concrete duplicate query the qualifying token is
produced by the extractor. -/
theorem C4_extract_keywords_witness : "카페".data ∈ extract_keywords dupQ :=
  (C4_extract_keywords_spec dupQ).2.2.1 "카페".data (by decide) (by decide) (by decide)

/-- C5, counterexample: a keyword occurring only in the `category` field is a
substring of the composite text but is not reported as matched —
`check_keyword_match` searches only title, description and target. -/
theorem C5_counterexample :
    occursIn (lower "수출".data) (lower (create_program_text exportProg)) ∧
    check_keyword_match ["수출".data] exportProg.title exportProg.description
      exportProg.target = [] :=
  ⟨(substrB_iff _ _).mp (by decide), by decide⟩

/-- C5, amended: a keyword is matched iff it occurs, case-insensitively, in
the space-joined title–description–target text (category and agency are not
searched; empty fields still contribute their separating spaces), and the
matched list is the query keyword list in order, restricted to the matching
keywords. -/
theorem C5_check_keyword_match_spec (keywords : List Str)
    (title description target : Str) :
    (check_keyword_match keywords title description target).Sublist keywords ∧
    ∀ kw : Str, kw ∈ check_keyword_match keywords title description target ↔
      kw ∈ keywords ∧
      occursIn (lower kw) (glue3 (lower title) (lower description) (lower target)) := by
  refine ⟨List.filter_sublist _, fun kw => ?_⟩
  simp [check_keyword_match, List.mem_filter, substrB_iff]

/-- C7: an empty (or missing) query returns the input list unchanged apart
from the result-limit truncation, and an empty candidate list returns the
empty list; neither path consults the similarity oracle or the keyword
extractor. -/
theorem C7_degenerate_inputs (sim : Str → Str → ℚ) (ud : Str)
    (programs : List Program) (top_n : Option Nat) (ms : ℚ) (ma : Bool) :
    (ud = [] → filter_by_similarity sim ud programs top_n ms ma = truncate top_n programs ∧
      (top_n = none → filter_by_similarity sim ud programs top_n ms ma = programs) ∧
      (∀ n, top_n = some n → 0 < n →
        filter_by_similarity sim ud programs top_n ms ma = programs.take n)) ∧
    (programs = [] → filter_by_similarity sim ud programs top_n ms ma = []) := by
  constructor
  · rintro rfl
    have h : filter_by_similarity sim [] programs top_n ms ma = truncate top_n programs := by
      simp [filter_by_similarity]
    refine ⟨h, ?_, ?_⟩
    · rintro rfl
      simpa [truncate] using h
    · rintro n rfl hn
      rw [h]
      simp [truncate, Nat.pos_iff_ne_zero.mp hn]
  · rintro rfl
    cases top_n with
    | none => simp [filter_by_similarity, truncate]
    | some n => simp [filter_by_similarity, truncate]

/-- C7 witness: empty query, one candidate, result limit 3. -/
theorem C7_degenerate_inputs_witness :
    filter_by_similarity simZero [] [cafeProg] (some 3) (1/5) false = [cafeProg].take 3 :=
  (((C7_degenerate_inputs simZero [] [cafeProg] (some 3) (1/5) false).1 rfl).2.2) 3
    rfl (by decide)

/-- C8: every returned record carries the eight base fields of some input
record unchanged — derived keys are only ever written to copies, and (the
embedding being a pure function of its inputs) the input list itself is
untouched. -/
theorem C8_no_mutation (sim : Str → Str → ℚ) (ud : Str) (programs : List Program)
    (top_n : Option Nat) (ms : ℚ) (ma : Bool) :
    ∀ r ∈ filter_by_similarity sim ud programs top_n ms ma,
      ∃ p ∈ programs, baseEq r p := by
  intro r hr
  simp only [filter_by_similarity] at hr
  split at hr
  · exact ⟨r, mem_of_mem_truncate hr, baseEq_refl r⟩
  · have hr' := mem_of_mem_truncate hr
    cases ma with
    | true =>
      obtain ⟨p, hp, he⟩ := rankedList_mem_all hr'
      exact ⟨p, hp, allExact_base he⟩
    | false =>
      rcases rankedList_mem_any hr' with ⟨p, hp, he | he⟩
      · exact ⟨p, hp, anyExact_base he⟩
      · exact ⟨p, hp, anySim_base he⟩

/-- C8 witness: the returned record of a degenerate call shares its base
fields with an input record. -/
theorem C8_no_mutation_witness : ∃ p ∈ [cafeProg], baseEq cafeProg p :=
  C8_no_mutation simZero [] [cafeProg] none 0 false cafeProg
    (by simp [filter_by_similarity, truncate])

/-- C2: in any-match mode, a candidate with ≥ 1 matched keyword enters the
exact-match tier with bonus `min(0.1·matchedCount, 0.3)`; a candidate with no
matched keyword is kept (in the similarity tier) iff its raw score reaches
`min_score`; the exact tier is sorted by (matched count desc, score desc),
the similarity tier by score desc; the output is the exact tier followed by
the similarity tier, truncated to `top_n` when a positive limit is set and
the full ranked list when unset. -/
theorem C2_any_match_pipeline (sim : Str → Str → ℚ) (ud : Str)
    (programs : List Program) (top_n : Option Nat) (ms : ℚ)
    (hud : ud ≠ []) (hprog : programs ≠ []) :
    filter_by_similarity sim ud programs top_n ms false =
      truncate top_n (sortedExactTier sim ud false programs ++
        sortedSimTier sim ud ms false programs) ∧
    (∀ p ∈ programs,
      check_keyword_match (extract_keywords ud) p.title p.description p.target ≠ [] →
      ∃ r ∈ sortedExactTier sim ud false programs,
        anyExact sim ud (extract_keywords ud) p = some r ∧
        r.matched_count = some (check_keyword_match (extract_keywords ud) p.title
          p.description p.target).length ∧
        r.similarity_score = some (min (sim ud (create_program_text p) +
          min (((check_keyword_match (extract_keywords ud) p.title p.description
            p.target).length : ℚ) * (1/10)) (3/10)) 1)) ∧
    (∀ p ∈ programs,
      check_keyword_match (extract_keywords ud) p.title p.description p.target = [] →
      (ms ≤ sim ud (create_program_text p) →
        ∃ r ∈ sortedSimTier sim ud ms false programs,
          anySim sim ud (extract_keywords ud) ms p = some r ∧
          r.similarity_score = some (sim ud (create_program_text p))) ∧
      (sim ud (create_program_text p) < ms →
        anyExact sim ud (extract_keywords ud) p = none ∧
        anySim sim ud (extract_keywords ud) ms p = none)) ∧
    List.Pairwise ExactKey (sortedExactTier sim ud false programs) ∧
    List.Pairwise SimKey (sortedSimTier sim ud ms false programs) ∧
    (top_n = none → filter_by_similarity sim ud programs top_n ms false =
      sortedExactTier sim ud false programs ++ sortedSimTier sim ud ms false programs) ∧
    (∀ n, top_n = some n → 0 < n →
      (filter_by_similarity sim ud programs top_n ms false).length ≤ n) := by
  have heq : filter_by_similarity sim ud programs top_n ms false =
      truncate top_n (sortedExactTier sim ud false programs ++
        sortedSimTier sim ud ms false programs) := by
    simp only [filter_by_similarity]
    rw [if_neg (by simp [List.isEmpty_iff, not_or, hud, hprog])]
    rfl
  refine ⟨heq, ?_, ?_, pairwise_sortedExactTier sim ud false programs,
    pairwise_sortedSimTier sim ud ms false programs, ?_, ?_⟩
  · intro p hp hm
    refine ⟨_, ?_, anyExact_eq_some_iff.mpr ⟨hm, rfl⟩, rfl, rfl⟩
    rw [sortedExactTier, (List.mergeSort_perm _ exactLE).mem_iff]
    exact List.mem_filterMap.mpr ⟨p, hp, anyExact_eq_some_iff.mpr ⟨hm, rfl⟩⟩
  · intro p hp hm
    constructor
    · intro hs
      refine ⟨_, ?_, anySim_eq_some_iff.mpr ⟨hm, hs, rfl⟩, rfl⟩
      rw [sortedSimTier, (List.mergeSort_perm _ simLE).mem_iff]
      exact List.mem_filterMap.mpr ⟨p, hp, anySim_eq_some_iff.mpr ⟨hm, hs, rfl⟩⟩
    · intro hs
      constructor
      · simp [anyExact, hm]
      · simp [anySim, hs.not_le]
  · intro htn
    rw [heq, htn]
    rfl
  · intro n htn hn
    rw [heq, htn]
    simp only [truncate]
    rw [if_neg (Nat.pos_iff_ne_zero.mp hn)]
    exact List.length_take_le n _

/-- C2 witness: the pipeline equation at a concrete query and candidate. -/
theorem C2_any_match_pipeline_witness :
    filter_by_similarity simZero cafeQ [cafeProg] none (1/5) false =
      sortedExactTier simZero cafeQ false [cafeProg] ++
      sortedSimTier simZero cafeQ (1/5) false [cafeProg] :=
  ((C2_any_match_pipeline simZero cafeQ [cafeProg] none (1/5)
    (by decide) (by decide)).2.2.2.2.2.1) rfl

/-- C6: in all-match mode every returned record stems from a candidate with
≥ 1 matched keyword (zero-match candidates are dropped), carries final score
`min(raw + min(0.1·matchedCount, 0.5), 1)`, has `is_exact_match` true exactly
when every query keyword matched, and the output is sorted by (matched count
desc, score desc). -/
theorem C6_all_match_mode (sim : Str → Str → ℚ) (ud : Str)
    (programs : List Program) (top_n : Option Nat) (ms : ℚ) (hud : ud ≠ []) :
    (∀ r ∈ filter_by_similarity sim ud programs top_n ms true,
      ∃ p ∈ programs, allExact sim ud (extract_keywords ud) p = some r ∧
        ∃ k, r.matched_count = some k ∧ 1 ≤ k ∧
          r.similarity_score = some (min (sim ud (create_program_text p) +
            min ((k : ℚ) * (1/10)) (1/2)) 1) ∧
          (r.is_exact_match = some true ↔ k = (extract_keywords ud).length)) ∧
    (∀ p ∈ programs,
      check_keyword_match (extract_keywords ud) p.title p.description p.target = [] →
      allExact sim ud (extract_keywords ud) p = none) ∧
    List.Pairwise ExactKey (filter_by_similarity sim ud programs top_n ms true) := by
  refine ⟨?_, ?_, ?_⟩
  · intro r hr
    simp only [filter_by_similarity] at hr
    split at hr
    · next hc =>
        rcases Bool.or_eq_true .. ▸ hc with h | h
        · rw [List.isEmpty_iff.mp h] at hr
          exact absurd (mem_of_mem_truncate hr) (List.not_mem_nil r)
        · exact absurd (List.isEmpty_iff.mp h) hud
    · obtain ⟨p, hp, he⟩ := rankedList_mem_all (mem_of_mem_truncate hr)
      rcases allExact_eq_some_iff.mp he with ⟨hm, _, hrec⟩
      subst hrec
      exact ⟨p, hp, he, _, rfl, List.length_pos.mpr hm, rfl, by simp⟩
  · intro p hp hm
    simp [allExact, hm]
  · have hsub : (filter_by_similarity sim ud programs top_n ms true).Sublist
        (sortedExactTier sim ud true programs) := by
      simp only [filter_by_similarity]
      split
      · next hc =>
          rcases Bool.or_eq_true .. ▸ hc with h | h
          · rw [List.isEmpty_iff.mp h]
            exact (truncate_sublist _ _).trans (List.nil_sublist _)
          · exact absurd (List.isEmpty_iff.mp h) hud
      · have hrl : rankedList sim ud programs ms true =
            sortedExactTier sim ud true programs := by
          simp [rankedList, sortedSimTier, simList]
        rw [hrl]
        exact truncate_sublist _ _
    exact List.Pairwise.sublist hsub (pairwise_sortedExactTier sim ud true programs)

/-- C6 witness: a zero-match candidate is dropped by the all-match branch. -/
theorem C6_all_match_mode_witness :
    allExact simZero cafeQ (extract_keywords cafeQ) noMatchProg = none :=
  (C6_all_match_mode simZero cafeQ [noMatchProg] none (1/5) (by decide)).2.1
    noMatchProg (by decide) (by decide)

theorem region_kw_facts : ∀ rk ∈ REGION_KEYWORDS, lower rk ≠ [] ∧ ' ' ∉ lower rk := by
  decide

theorem nationwide_facts : nationwideMarker ≠ [] ∧ ' ' ∉ nationwideMarker := by
  decide

/-- If neither the (lower-cased) region name nor the nationwide marker occurs
in the lower-cased composite text of `p`, then `check_region_match` rejects
`p`: the title–description–target text it scans is covered by the composite
text for space-free tokens. -/
theorem check_region_match_eq_false (p : Program) (rk : Str)
    (hrk : rk ∈ REGION_KEYWORDS)
    (h1 : ¬ occursIn (lower rk) (lower (create_program_text p)))
    (h2 : ¬ occursIn nationwideMarker (lower (create_program_text p))) :
    check_region_match rk p.title p.description p.target = false := by
  have hb1 : substrB (lower rk) (lower (glue3 p.title p.description p.target)) = false := by
    rw [Bool.eq_false_iff]
    intro hb
    exact h1 (occursIn_text_of_glue3 p (region_kw_facts rk hrk).1
      (region_kw_facts rk hrk).2 ((substrB_iff _ _).mp hb))
  have hb2 : substrB nationwideMarker (lower (glue3 p.title p.description p.target)) = false := by
    rw [Bool.eq_false_iff]
    intro hb
    exact h2 (occursIn_text_of_glue3 p nationwide_facts.1 nationwide_facts.2
      ((substrB_iff _ _).mp hb))
  simp [check_region_match, hb1, hb2]

/-- C3: in all-match mode, when the query carries at least one region keyword,
a candidate whose composite text contains neither any of those region names
nor the nationwide marker never appears in the output (no returned record
shares its base fields); when the query has no region keyword, no matched
candidate is excluded on region grounds; and in any-match mode no region
check is consulted at all — every matched candidate enters the ranked list. -/
theorem C3_region_hard_filter (sim : Str → Str → ℚ) (ud : Str)
    (programs : List Program) (top_n : Option Nat) (ms : ℚ) :
    (∀ p : Program, regionKeywordsIn (extract_keywords ud) ≠ [] →
      (∀ rk ∈ regionKeywordsIn (extract_keywords ud),
        ¬ occursIn (lower rk) (lower (create_program_text p))) →
      ¬ occursIn nationwideMarker (lower (create_program_text p)) →
      ∀ r ∈ filter_by_similarity sim ud programs top_n ms true, ¬ baseEq r p) ∧
    (regionKeywordsIn (extract_keywords ud) = [] →
      ∀ p ∈ programs,
        check_keyword_match (extract_keywords ud) p.title p.description p.target ≠ [] →
        ∃ r, allExact sim ud (extract_keywords ud) p = some r ∧
          r ∈ rankedList sim ud programs ms true) ∧
    (∀ p ∈ programs,
      check_keyword_match (extract_keywords ud) p.title p.description p.target ≠ [] →
      ∃ r, anyExact sim ud (extract_keywords ud) p = some r ∧
        r ∈ rankedList sim ud programs ms false) := by
  refine ⟨?_, ?_, ?_⟩
  · intro p hne habs hnw r hr hbase
    simp only [filter_by_similarity] at hr
    split at hr
    · next hc =>
        rcases Bool.or_eq_true .. ▸ hc with h | h
        · rw [List.isEmpty_iff.mp h] at hr
          exact absurd (mem_of_mem_truncate hr) (List.not_mem_nil r)
        · rw [List.isEmpty_iff.mp h] at hne
          exact hne (by decide)
    · obtain ⟨q, hq, he⟩ := rankedList_mem_all (mem_of_mem_truncate hr)
      rcases allExact_eq_some_iff.mp he with ⟨_, hreg, hrec⟩
      subst hrec
      have hb : baseEq q p := hbase
      obtain ⟨hbt, hbd, hbg, _⟩ := hb
      rw [Bool.or_eq_true] at hreg
      rcases hreg with hreg | hreg
      · exact hne (List.isEmpty_iff.mp hreg)
      · rcases List.any_eq_true.mp hreg with ⟨rk, hrkmem, hchk⟩
        have hrkR : rk ∈ REGION_KEYWORDS := by
          have hmem := (List.mem_filter.mp hrkmem).2
          simpa [is_region_keyword] using hmem
        have hfalse : check_region_match rk p.title p.description p.target = false :=
          check_region_match_eq_false p rk hrkR (habs rk hrkmem) hnw
        rw [hbt, hbd, hbg, hfalse] at hchk
        exact Bool.false_ne_true hchk
  · intro hreg p hp hm
    have hcond : ((regionKeywordsIn (extract_keywords ud)).isEmpty ||
        (regionKeywordsIn (extract_keywords ud)).any
          (fun kw => check_region_match kw p.title p.description p.target)) = true := by
      simp [hreg]
    exact ⟨_, allExact_eq_some_iff.mpr ⟨hm, hcond, rfl⟩,
      mem_rankedList_all hp (allExact_eq_some_iff.mpr ⟨hm, hcond, rfl⟩)⟩
  · intro p hp hm
    exact ⟨_, anyExact_eq_some_iff.mpr ⟨hm, rfl⟩,
      mem_rankedList_any_exact hp (anyExact_eq_some_iff.mpr ⟨hm, rfl⟩)⟩

/-- The annotated copy of `jbProg` produced by the all-match branch under the
oracle `simZero` and the query `regionQ`. -/
def jbCopy : Program :=
  { jbProg with
    similarity_score := some (min (simZero regionQ (create_program_text jbProg) +
      min (((check_keyword_match (extract_keywords regionQ) jbProg.title
        jbProg.description jbProg.target).length : ℚ) * (1/10)) (1/2)) 1),
    matched_keywords := some (check_keyword_match (extract_keywords regionQ)
      jbProg.title jbProg.description jbProg.target),
    matched_count := some (check_keyword_match (extract_keywords regionQ)
      jbProg.title jbProg.description jbProg.target).length,
    total_keywords := some (extract_keywords regionQ).length,
    is_exact_match := some (decide ((check_keyword_match (extract_keywords regionQ)
      jbProg.title jbProg.description jbProg.target).length =
      (extract_keywords regionQ).length)),
    region_matched := some true }

/-- C3 witness: for the query `"전북 카페"` the Seoul-only candidate is
region-incompatible, so the record the pipeline does return (the copy of the
Jeonbuk candidate) does not stem from it. -/
theorem C3_region_hard_filter_witness : ¬ baseEq jbCopy seoulProg := by
  have hmem : jbCopy ∈ filter_by_similarity simZero regionQ [seoulProg, jbProg]
      none (1/5) true := by
    simp only [filter_by_similarity]
    rw [if_neg (by decide)]
    exact mem_rankedList_all (by decide)
      (allExact_eq_some_iff.mpr ⟨by decide, by decide, rfl⟩)
  exact (C3_region_hard_filter simZero regionQ [seoulProg, jbProg] none (1/5)).1
    seoulProg (by decide)
    (by intro rk hrk hocc
        rw [show regionKeywordsIn (extract_keywords regionQ) = ["전북".data]
          from by decide] at hrk
        obtain rfl := List.mem_singleton.mp hrk
        exact absurd ((substrB_iff _ _).mpr hocc) (by decide))
    (fun hocc => absurd ((substrB_iff _ _).mpr hocc) (by decide))
    jbCopy hmem

/-- C9: in default any-match mode `is_exact_match` marks tier membership, not
completeness: every returned record either has ≥ 1 matched keyword and
`is_exact_match = True`, or 0 matched keywords and `is_exact_match = False`;
and the `total_keywords` key is attached only by the all-match branch — in
any-match mode, records that entered without the key leave without it, while
in all-match mode every returned record carries it. -/
theorem C9_flag_semantics (sim : Str → Str → ℚ) (ud : Str)
    (programs : List Program) (top_n : Option Nat) (ms : ℚ) (hud : ud ≠ [])
    (hfresh : ∀ p ∈ programs, p.total_keywords = none) :
    (∀ r ∈ filter_by_similarity sim ud programs top_n ms false,
      r.total_keywords = none ∧
      ∃ k, r.matched_count = some k ∧
        ((1 ≤ k ∧ r.is_exact_match = some true) ∨
         (k = 0 ∧ r.is_exact_match = some false))) ∧
    (∀ r ∈ filter_by_similarity sim ud programs top_n ms true,
      r.total_keywords = some (extract_keywords ud).length) := by
  constructor
  · intro r hr
    simp only [filter_by_similarity] at hr
    split at hr
    · next hc =>
        rcases Bool.or_eq_true .. ▸ hc with h | h
        · rw [List.isEmpty_iff.mp h] at hr
          exact absurd (mem_of_mem_truncate hr) (List.not_mem_nil r)
        · exact absurd (List.isEmpty_iff.mp h) hud
    · rcases rankedList_mem_any (mem_of_mem_truncate hr) with ⟨p, hp, he | he⟩
      · rcases anyExact_eq_some_iff.mp he with ⟨hm, rfl⟩
        exact ⟨hfresh p hp, _, rfl, Or.inl ⟨List.length_pos.mpr hm, rfl⟩⟩
      · rcases anySim_eq_some_iff.mp he with ⟨hm, hs, rfl⟩
        exact ⟨hfresh p hp, 0, rfl, Or.inr ⟨rfl, rfl⟩⟩
  · intro r hr
    simp only [filter_by_similarity] at hr
    split at hr
    · next hc =>
        rcases Bool.or_eq_true .. ▸ hc with h | h
        · rw [List.isEmpty_iff.mp h] at hr
          exact absurd (mem_of_mem_truncate hr) (List.not_mem_nil r)
        · exact absurd (List.isEmpty_iff.mp h) hud
    · obtain ⟨p, hp, he⟩ := rankedList_mem_all (mem_of_mem_truncate hr)
      rcases allExact_eq_some_iff.mp he with ⟨_, _, rfl⟩
      rfl

/-- The annotated copy of `cafeProg` produced by the all-match branch under
the oracle `simZero`. -/
def cafeAllCopy : Program :=
  { cafeProg with
    similarity_score := some (min (simZero cafeQ (create_program_text cafeProg) +
      min (((check_keyword_match (extract_keywords cafeQ) cafeProg.title
        cafeProg.description cafeProg.target).length : ℚ) * (1/10)) (1/2)) 1),
    matched_keywords := some (check_keyword_match (extract_keywords cafeQ)
      cafeProg.title cafeProg.description cafeProg.target),
    matched_count := some (check_keyword_match (extract_keywords cafeQ)
      cafeProg.title cafeProg.description cafeProg.target).length,
    total_keywords := some (extract_keywords cafeQ).length,
    is_exact_match := some (decide ((check_keyword_match (extract_keywords cafeQ)
      cafeProg.title cafeProg.description cafeProg.target).length =
      (extract_keywords cafeQ).length)),
    region_matched := some true }

/-- C9 witness: the all-match output record of a concrete call carries the
`total_keywords` key. -/
theorem C9_flag_semantics_witness :
    cafeAllCopy.total_keywords = some (extract_keywords cafeQ).length := by
  have hmem : cafeAllCopy ∈ filter_by_similarity simZero cafeQ [cafeProg]
      none (1/5) true := by
    simp only [filter_by_similarity]
    rw [if_neg (by decide)]
    exact mem_rankedList_all (by decide)
      (allExact_eq_some_iff.mpr ⟨by decide, by decide, rfl⟩)
  exact (C9_flag_semantics simZero cafeQ [cafeProg] none (1/5) (by decide)
    (by intro p hp; obtain rfl := List.mem_singleton.mp hp; rfl)).2
    cafeAllCopy hmem

/-- C10: `min_score` is never consulted in all-match mode — the output is the
same for any two values of the parameter; every matched, region-compatible
candidate contributes its copy to the ranked list regardless of its raw
similarity score; and (given non-degenerate inputs and no result limit) the
output is exactly that ranked list. -/
theorem C10_min_score_unused (sim : Str → Str → ℚ) (ud : Str)
    (programs : List Program) (top_n : Option Nat) :
    (∀ ms₁ ms₂ : ℚ, filter_by_similarity sim ud programs top_n ms₁ true =
      filter_by_similarity sim ud programs top_n ms₂ true) ∧
    (∀ ms : ℚ, ∀ p ∈ programs,
      check_keyword_match (extract_keywords ud) p.title p.description p.target ≠ [] →
      ((regionKeywordsIn (extract_keywords ud)).isEmpty ||
        (regionKeywordsIn (extract_keywords ud)).any
          (fun kw => check_region_match kw p.title p.description p.target)) = true →
      ∃ r, allExact sim ud (extract_keywords ud) p = some r ∧
        r ∈ rankedList sim ud programs ms true) ∧
    (∀ ms : ℚ, ud ≠ [] → programs ≠ [] →
      filter_by_similarity sim ud programs none ms true =
        rankedList sim ud programs ms true) := by
  refine ⟨fun ms₁ ms₂ => rfl, ?_, ?_⟩
  · intro ms p hp hm hreg
    exact ⟨_, allExact_eq_some_iff.mpr ⟨hm, hreg, rfl⟩,
      mem_rankedList_all hp (allExact_eq_some_iff.mpr ⟨hm, hreg, rfl⟩)⟩
  · intro ms hud hprog
    simp only [filter_by_similarity]
    rw [if_neg (by simp [List.isEmpty_iff, not_or, hud, hprog])]
    rfl

/-- C10 witness: a matched, region-compatible candidate enters the ranked
list at a concrete `min_score`. -/
theorem C10_min_score_unused_witness :
    ∃ r, allExact simZero regionQ (extract_keywords regionQ) jbProg = some r ∧
      r ∈ rankedList simZero regionQ [seoulProg, jbProg] (1/5) true :=
  (C10_min_score_unused simZero regionQ [seoulProg, jbProg] none).2.1 (1/5) jbProg
    (by decide) (by decide) (by decide)
